import Mathlib

/-!
Verification development for the `visualizadorperceptron` repository: an
interactive MNIST MLP visualizer.  The JavaScript source is shallowly
embedded here: machine floating-point numbers are modelled as exact
rationals (`ℚ`), stateful classes become explicit state-passing on
structures, and fallible constructors return `Except`.  Where the
JavaScript distinguishes finite from non-finite numbers
(`Number.isFinite` in the connection selector), weight entries are
modelled as `Option ℚ`, with `none` standing for any non-finite value
(NaN or ±∞); everywhere else the code operates on values that the claims
assume finite, and plain `ℚ` is used.
-/

namespace VP

/-- Model of `{mean, std}` from the network definition's `normalization`
field. -/
structure Normalization where
  mean : ℚ
  std : ℚ
deriving Repr, DecidableEq

/-- One layer as stored by the `MLPNetwork` constructor: name, activation
string (defaulted to "relu" by the constructor), weight matrix (rows =
output neurons) and bias vector. -/
structure Layer where
  name : String
  activation : String
  weights : List (List ℚ)
  biases : List ℚ
deriving Repr, DecidableEq, Inhabited

/-- The constructed `MLPNetwork` state. -/
structure MLPNetwork where
  normalization : Normalization
  architecture : List ℤ
  layers : List Layer
deriving Repr, DecidableEq

/-- One entry of the loaded definition's `layers` array; `name` and
`activation` are optional in the JSON document. -/
structure LayerDef where
  name : Option String
  activation : Option String
  weights : List (List ℚ)
  biases : List ℚ
deriving Repr, DecidableEq, Inhabited

/-- The loaded network-definition document (`definition.network`). -/
structure NetworkDef where
  normalization : Option Normalization
  architecture : Option (List ℤ)
  layers : List LayerDef
deriving Repr, DecidableEq

/-- `MLPNetwork.computeArchitecture`: `[firstLayer.weights[0]?.length ?? 0]`
followed by each layer's `biases.length`. -/
def computeArchitecture (layers : List LayerDef) : List ℤ :=
  match layers with
  | [] => []
  | firstLayer :: _ =>
    ((firstLayer.weights.headD []).length : ℤ) ::
      layers.map (fun layer => (layer.biases.length : ℤ))

/-- Builds the stored layer record from a `LayerDef`, applying the
constructor's defaults `layer.name ?? dense_<index>` and
`layer.activation ?? "relu"`. -/
def buildLayer (index : ℕ) (layer : LayerDef) : Layer :=
  { name := layer.name.getD ("dense_" ++ toString index)
  , activation := layer.activation.getD "relu"
  , weights := layer.weights
  , biases := layer.biases }

/-- Maps each `LayerDef` to its stored `Layer`, carrying the index (the
`definition.layers.map((layer, index) => ...)` call). -/
def buildLayers (index : ℕ) : List LayerDef → List Layer
  | [] => []
  | l :: rest => buildLayer index l :: buildLayers (index + 1) rest

/-- The `MLPNetwork` constructor.  It throws only when
`!definition.layers?.length` (empty layer list); otherwise it stores the
normalization (default `{mean: 0, std: 1}`), the architecture (explicit
or derived) and the mapped layers.  No dimension check is performed. -/
def MLPNetwork.make (d : NetworkDef) : Except String MLPNetwork :=
  if d.layers.isEmpty then
    .error "Network definition must contain layers."
  else
    .ok { normalization := d.normalization.getD ⟨0, 1⟩
        , architecture := d.architecture.getD (computeArchitecture d.layers)
        , layers := buildLayers 0 d.layers }

/-- The inner accumulation loop of `forward`:
`sum = bias; for (source = 0; source < weights.length; source++)
 sum += weights[source] * current[source]`.
An out-of-range read of `current` is modelled as 0 (in JavaScript it
yields NaN; the claims about `forward` carry the dimension precondition
under which every read is in range, so the two models agree there). -/
def dotBias (bias : ℚ) (row current : List ℚ) : ℚ :=
  (List.range row.length).foldl
    (fun sum source => sum + row.getD source 0 * current.getD source 0) bias

/-- `linear[neuron] = dotBias(bias[neuron], weights[neuron], current)` for
every output neuron of the layer. -/
def layerLinear (layer : Layer) (current : List ℚ) : List ℚ :=
  (List.range layer.biases.length).map
    (fun neuron => dotBias (layer.biases.getD neuron 0) (layer.weights.getD neuron []) current)

/-- The activation step of `forward`: ReLU (`linear[i] > 0 ? linear[i] : 0`)
when the layer's activation string is `"relu"`, otherwise a copy of the
linear vector (`linear.slice()`), which is value-equal to it. -/
def applyActivation (layer : Layer) (linear : List ℚ) : List ℚ :=
  if layer.activation = "relu" then
    linear.map (fun x => if x > 0 then x else 0)
  else
    linear

/-- The per-layer loop of `forward`, returning the activations pushed
after the input and the pre-activations, in order. -/
def forwardLayers : List Layer → List ℚ → List (List ℚ) × List (List ℚ)
  | [], _ => ([], [])
  | layer :: rest, current =>
    let linear := layerLinear layer current
    let activated := applyActivation layer linear
    let tail := forwardLayers rest activated
    (activated :: tail.1, linear :: tail.2)

/-- The result record of `MLPNetwork.forward`. -/
structure ForwardResult where
  normalizedInput : List ℚ
  activations : List (List ℚ)
  preActivations : List (List ℚ)
deriving Repr, DecidableEq

/-- `MLPNetwork.forward`: normalizes the input
(`input[i] = (pixels[i] - mean) / std`), then runs the layer loop; the
returned `activations` start with the normalized input. -/
def MLPNetwork.forward (net : MLPNetwork) (pixels : List ℚ) : ForwardResult :=
  let input := pixels.map (fun p => (p - net.normalization.mean) / net.normalization.std)
  let tail := forwardLayers net.layers input
  { normalizedInput := input
  , activations := input :: tail.1
  , preActivations := tail.2 }

/-! ## softmax and maxAbsValue -/

/-- `Math.max(...values)` on a non-empty list (the `softmax` source
guards the empty case before calling it); defined as 0 on `[]`. -/
def jsMax (values : List ℚ) : ℚ :=
  match values with
  | [] => 0
  | v :: rest => rest.foldl max v

/-- `softmax(values)`: returns `[]` on the empty list; otherwise subtracts
the maximum, exponentiates, and divides by the sum unless the sum is
exactly zero, in which case every probability is 0.  `Math.exp` is a
transcendental primitive with no exact rational counterpart, so it is
abstracted as the parameter `exp`; every property proved below holds for
an arbitrary `exp`, in particular for the real exponential. -/
def softmax (exp : ℚ → ℚ) (values : List ℚ) : List ℚ :=
  match values with
  | [] => []
  | _ :: _ =>
    let maxVal := jsMax values
    let exps := values.map (fun value => exp (value - maxVal))
    let sum := exps.foldl (fun acc value => acc + value) 0
    exps.map (fun value => if sum = 0 then 0 else value / sum)

/-- `maxAbsValue(values)`: the running maximum of `Math.abs` over the
list, starting from 0. -/
def maxAbsValue (values : List ℚ) : ℚ :=
  values.foldl (fun m v => if |v| > m then |v| else m) 0

/-! ## Connection selector

`NetworkVisualizer.findImportantConnections` iterates over every target
(output) neuron's weight row, collects the finite weights as candidates
with their magnitudes, sorts each candidate list descending by magnitude
(JavaScript `Array.prototype.sort` is stable; the stable sort is modelled
by insertion sort with a comparator that keeps an earlier element in
front of a later one of equal magnitude), and keeps the first
`min(limit, candidates.length)` entries per target.  Weight entries are
`Option ℚ`: `none` models any value for which `Number.isFinite` is
false. -/

/-- One candidate edge (`{sourceIndex, targetIndex, weight, magnitude}`). -/
structure Candidate where
  sourceIndex : ℕ
  targetIndex : ℕ
  weight : ℚ
  magnitude : ℚ
deriving Repr, DecidableEq, Inhabited

/-- One selected edge (`{sourceIndex, targetIndex, weight}`). -/
structure Edge where
  sourceIndex : ℕ
  targetIndex : ℕ
  weight : ℚ
deriving Repr, DecidableEq, Inhabited

/-- The candidate loop for one row: finite weights become candidates (in
source order, with their column index); non-finite entries are skipped.
`s` is the column index of the first entry of `row`. -/
def candidatesForRow (t : ℕ) : ℕ → List (Option ℚ) → List Candidate
  | _, [] => []
  | s, w :: rest =>
    match w with
    | some q => ⟨s, t, q, |q|⟩ :: candidatesForRow t (s + 1) rest
    | none => candidatesForRow t (s + 1) rest

/-- Inserts a candidate into a list already sorted descending by
magnitude, placing it in front of the first element of magnitude at most
its own (so an element is never moved past a later one of equal
magnitude: stability). -/
def insertDesc (c : Candidate) : List Candidate → List Candidate
  | [] => [c]
  | x :: xs => if x.magnitude ≤ c.magnitude then c :: x :: xs else x :: insertDesc c xs

/-- Stable sort, descending by magnitude
(`candidates.sort((a, b) => b.magnitude - a.magnitude)`). -/
def sortCandidates : List Candidate → List Candidate
  | [] => []
  | x :: xs => insertDesc x (sortCandidates xs)

/-- Drops the magnitude field of a candidate when it is pushed onto
`selected`. -/
def Candidate.toEdge (c : Candidate) : Edge :=
  ⟨c.sourceIndex, c.targetIndex, c.weight⟩

/-- The per-target selection: sort the row's candidates and take
`Math.min(limit, candidates.length)` of them. -/
def selectRow (limit : ℕ) (t : ℕ) (row : List (Option ℚ)) : List Edge :=
  let candidates := candidatesForRow t 0 row
  let sorted := sortCandidates candidates
  (sorted.take (min limit sorted.length)).map Candidate.toEdge

/-- The running `maxAbsWeight` update over one row: every finite weight's
magnitude is compared against the accumulator. -/
def rowMaxAbs (m : ℚ) (row : List (Option ℚ)) : ℚ :=
  row.foldl
    (fun acc w =>
      match w with
      | some q => if |q| > acc then |q| else acc
      | none => acc) m

/-- The result of `findImportantConnections`. -/
structure SelectorResult where
  selected : List Edge
  maxAbsWeight : ℚ
deriving Repr, DecidableEq

/-- The per-target selection loop over all weight rows, concatenating
each target's selected edges in order. -/
def selectAll (limit : ℕ) : ℕ → List (List (Option ℚ)) → List Edge
  | _, [] => []
  | t, row :: rest => selectRow limit t row ++ selectAll limit (t + 1) rest

/-- `findImportantConnections(layer)` with the configured
`maxConnectionsPerNeuron` limit: selected edges of every target, plus the
maximum magnitude over all finite candidates of the whole layer. -/
def findImportantConnections (limit : ℕ) (weights : List (List (Option ℚ))) :
    SelectorResult :=
  ⟨selectAll limit 0 weights, weights.foldl rowMaxAbs 0⟩

/-! ## Spatial layout -/

/-- A 3D position (`THREE.Vector3`). -/
structure Vec3 where
  x : ℚ
  y : ℚ
  z : ℚ
deriving Repr, DecidableEq

/-- The visualizer options after the constructor's `Object.assign` with
defaults. -/
structure VisOptions where
  layerSpacing : ℚ
  nodeRadius : ℚ
  maxConnectionsPerNeuron : ℕ
  inputSpacing : ℚ
  hiddenSpacing : ℚ
deriving Repr, DecidableEq

/-- `Math.ceil(Math.sqrt(n))` for a natural number `n` (exact-real
square-root semantics): `Nat.sqrt` is the floor, bumped by one unless `n`
is a perfect square. -/
def ceilSqrt (n : ℕ) : ℕ :=
  if Nat.sqrt n * Nat.sqrt n = n then Nat.sqrt n else Nat.sqrt n + 1

/-- `Math.ceil(a / b)` on natural numbers.  For `b = 0` the JavaScript
expression is NaN and every loop bounded by it runs zero times, so the
model returns 0 (this arises only for `neuronCount = 0`). -/
def jsCeilDiv (a b : ℕ) : ℕ :=
  if b = 0 then 0 else (a + b - 1) / b

/-- `NetworkVisualizer.computeLayerPositions(layerIndex, neuronCount,
layerX)`.  Layer 0 uses the input spacing and a 28×28 grid when
`neuronCount === 28 * 28`, otherwise `cols = ceil(sqrt(n))`,
`rows = ceil(n / cols)`; the double fill loop guarded by
`filled < neuronCount` enumerates the first `neuronCount` grid cells in
row-major order.  Other layers use the hidden spacing with
`cols = max(1, ceil(sqrt(n)))` and one position per index. -/
def computeLayerPositions (opts : VisOptions) (layerIndex neuronCount : ℕ)
    (layerX : ℚ) : List Vec3 :=
  if layerIndex = 0 then
    let spacing := opts.inputSpacing
    let cols := if neuronCount = 28 * 28 then 28 else ceilSqrt neuronCount
    let rows := if neuronCount = 28 * 28 then 28 else jsCeilDiv neuronCount cols
    let height := ((rows : ℚ) - 1) * spacing
    let width := ((cols : ℚ) - 1) * spacing
    ((List.range (rows * cols)).take neuronCount).map (fun k =>
      ⟨layerX, height / 2 - ((k / cols : ℕ) : ℚ) * spacing,
        -width / 2 + ((k % cols : ℕ) : ℚ) * spacing⟩)
  else
    let spacing := opts.hiddenSpacing
    let cols := max 1 (ceilSqrt neuronCount)
    let rows := jsCeilDiv neuronCount cols
    let height := ((rows : ℚ) - 1) * spacing
    let width := ((cols : ℚ) - 1) * spacing
    (List.range neuronCount).map (fun index =>
      ⟨layerX, height / 2 - ((index / cols : ℕ) : ℚ) * spacing,
        -width / 2 + ((index % cols : ℕ) : ℚ) * spacing⟩)

/-- The per-layer loop of `NetworkVisualizer.buildLayers` restricted to
what it feeds `computeLayerPositions`: each architecture entry becomes
that layer's position list at `layerX = startX + layerIndex *
layerSpacing`.  A negative architecture entry yields no positions in the
JavaScript loops and is modelled by `Int.toNat`. -/
def buildPositionsFrom (opts : VisOptions) (startX : ℚ) :
    ℕ → List ℤ → List (List Vec3)
  | _, [] => []
  | layerIndex, neuronCount :: rest =>
    computeLayerPositions opts layerIndex neuronCount.toNat
        (startX + (layerIndex : ℚ) * opts.layerSpacing) ::
      buildPositionsFrom opts startX (layerIndex + 1) rest

/-- All neuron positions of a network, exactly as `buildLayers` computes
them: `startX = -((layerCount - 1) * layerSpacing) / 2` and one position
list per architecture entry. -/
def buildPositions (opts : VisOptions) (net : MLPNetwork) : List (List Vec3) :=
  let layerCount := net.architecture.length
  let totalWidth := ((layerCount : ℚ) - 1) * opts.layerSpacing
  buildPositionsFrom opts (-totalWidth / 2) 0 net.architecture

/-! ## Scene state and `update` -/

/-- One RGB color (a slot of an `instanceColor` attribute). -/
structure Color where
  r : ℚ
  g : ℚ
  b : ℚ
deriving Repr, DecidableEq, Inhabited

/-- One neuron instanced mesh: per-instance transform matrices written at
build time, per-instance colors, and the attribute's dirty flag. -/
structure LayerMeshState where
  matrices : List (List ℚ)
  colors : List Color
  colorNeedsUpdate : Bool
deriving Repr, DecidableEq, Inhabited

/-- One connection group: the instanced mesh state plus the selected
edges, their source-layer index and the layer's static `maxAbsWeight`. -/
structure ConnGroupState where
  matrices : List (List ℚ)
  colors : List Color
  colorNeedsUpdate : Bool
  connections : List Edge
  sourceLayer : ℕ
  maxAbsWeight : ℚ
deriving Repr, DecidableEq, Inhabited

/-- The mutable scene state `update` operates on. -/
structure VisState where
  layerMeshes : List LayerMeshState
  connectionGroups : List ConnGroupState
deriving Repr, DecidableEq

/-- `Math.min(1, Math.abs(value) / safeScale)`. -/
def nodeIntensity (value safeScale : ℚ) : ℚ :=
  min 1 (|value| / safeScale)

/-- The node color ramp of `applyNodeColors`, as a function of the value
(for its sign) and the already computed intensity. -/
def nodeColorOf (value intensity : ℚ) : Color :=
  if intensity < 0.015 then ⟨0.08, 0.1, 0.18⟩
  else if value ≥ 0 then
    ⟨0.14 + 0.86 * intensity, 0.24 + 0.62 * intensity, 0.28 + 0.18 * intensity⟩
  else
    ⟨0.16 + 0.24 * intensity, 0.22 + 0.48 * intensity, 0.32 + 0.68 * intensity⟩

/-- One `setColorAt` pass of `applyNodeColors`: the instance at index `i`
receives `nodeColorOf values[i] (min 1 (|values[i]| / safeScale))` when
`i < values.length`; writes beyond the color attribute's length are
dropped (out-of-range typed-array writes), and instances at or beyond
`values.length` keep their previous color. -/
def writeNodeColors (values : List ℚ) (safeScale : ℚ) :
    ℕ → List Color → List Color
  | _, [] => []
  | i, c :: rest =>
    (match values.get? i with
     | some value => nodeColorOf value (nodeIntensity value safeScale)
     | none => c) :: writeNodeColors values safeScale (i + 1) rest

/-- `applyNodeColors(mesh, values, scale)` on the color array:
`safeScale = scale > 1e-6 ? scale : 1`, then the per-instance loop. -/
def applyNodeColors (colors : List Color) (values : List ℚ) (scale : ℚ) :
    List Color :=
  let safeScale := if scale > 1e-6 then scale else 1
  writeNodeColors values safeScale 0 colors

/-- The scale `update` hands to `applyNodeColors` for layer `li`:
`layerIndex === 0 ? 1 : maxAbsValue(actualActivations[layerIndex])`,
then `scale || 1` (JavaScript treats 0 as falsy). -/
def updateNodeScale (actualActivations : List (List ℚ)) (li : ℕ) : ℚ :=
  let scale := if li = 0 then 1 else maxAbsValue (actualActivations.getD li [])
  if scale = 0 then 1 else scale

/-- The intensity from which layer `li`'s instance `i` is recolored by
`update`: the display value at that slot over the safe scale. -/
def updateNodeIntensity (displayActivations actualActivations : List (List ℚ))
    (li i : ℕ) : ℚ :=
  let scale := updateNodeScale actualActivations li
  let safeScale := if scale > 1e-6 then scale else 1
  nodeIntensity ((displayActivations.getD li []).getD i 0) safeScale

/-- The connection color ramp of `applyConnectionColors`, as a function
of the contribution value and its intensity. -/
def connColorOf (value intensity : ℚ) : Color :=
  if intensity < 0.02 then ⟨0.08, 0.1, 0.18⟩
  else if value ≥ 0 then
    ⟨0.25 + 0.75 * intensity, 0.32 + 0.45 * intensity, 0.2 + 0.15 * intensity⟩
  else
    ⟨0.2 + 0.18 * intensity, 0.28 + 0.4 * intensity, 0.4 + 0.55 * intensity⟩

/-- The `setColorAt` pass of `applyConnectionColors` over the stored
contributions. -/
def writeConnColors (contributions : List ℚ) (scale : ℚ) :
    ℕ → List Color → List Color
  | _, [] => []
  | i, c :: rest =>
    (match contributions.get? i with
     | some value => connColorOf value (min 1 (|value| / scale))
     | none => c) :: writeConnColors contributions scale (i + 1) rest

/-- `connection contribution = (sourceValues[sourceIndex] ?? 0) * weight`
for every rendered connection of a group. -/
def groupContributions (connections : List Edge) (sourceValues : List ℚ) :
    List ℚ :=
  connections.map (fun c => sourceValues.getD c.sourceIndex 0 * c.weight)

/-- The color scale of `applyConnectionColors`:
`maxContribution > 1e-6 ? maxContribution : (group.maxAbsWeight || 1)`. -/
def connScale (maxContribution maxAbsWeight : ℚ) : ℚ :=
  if maxContribution > 1e-6 then maxContribution
  else if maxAbsWeight = 0 then 1 else maxAbsWeight

/-- `applyConnectionColors(group, sourceValues)`: computes every edge's
contribution, the frame's maximum magnitude, the scale, and rewrites the
group's color array, flagging it dirty. -/
def applyConnectionColors (group : ConnGroupState) (sourceValues : List ℚ) :
    ConnGroupState :=
  let contributions := groupContributions group.connections sourceValues
  let maxContribution := maxAbsValue contributions
  let scale := connScale maxContribution group.maxAbsWeight
  { group with
      colors := writeConnColors contributions scale 0 group.colors
    , colorNeedsUpdate := true }

/-- The node half of `update`: each layer mesh whose
`displayActivations[layerIndex]` exists is recolored (and flagged
dirty); absent entries leave the mesh untouched (`if (!values) return`). -/
def updateMeshes (displayActivations actualActivations : List (List ℚ)) :
    ℕ → List LayerMeshState → List LayerMeshState
  | _, [] => []
  | li, layer :: rest =>
    (match displayActivations.get? li with
     | none => layer
     | some values =>
       { layer with
           colors := applyNodeColors layer.colors values
             (updateNodeScale actualActivations li)
         , colorNeedsUpdate := true }) ::
      updateMeshes displayActivations actualActivations (li + 1) rest

/-- `NetworkVisualizer.update(displayActivations, actualActivations)`:
recolors every layer mesh and every connection group; nothing else of
the state is touched. -/
def update (s : VisState) (displayActivations actualActivations : List (List ℚ)) :
    VisState :=
  { layerMeshes := updateMeshes displayActivations actualActivations 0 s.layerMeshes
  , connectionGroups := s.connectionGroups.map (fun group =>
      match actualActivations.get? group.sourceLayer with
      | none => group
      | some sourceValues => applyConnectionColors group sourceValues) }

/-! ## Drawing grid -/

/-- The drawing-grid state: a `rows × cols` buffer of cell intensities
(the DOM cells and pointer bookkeeping carry no pixel information and
are omitted). -/
structure DrawingGrid where
  rows : ℕ
  cols : ℕ
  values : List ℚ
deriving Repr, DecidableEq

/-- A fresh grid: `new Float32Array(rows * cols)` is all zeros. -/
def DrawingGrid.init (rows cols : ℕ) : DrawingGrid :=
  ⟨rows, cols, List.replicate (rows * cols) 0⟩

/-- `paintCell(index, erase)`: adds 0.55 (draw) or subtracts 0.45
(erase), clamps with `Math.min(1, Math.max(0, ...))`, and stores the new
value unless it is unchanged.  An out-of-range store into the typed
array is dropped, matching `List.set`. -/
def DrawingGrid.paintCell (g : DrawingGrid) (index : ℕ) (erase : Bool) :
    DrawingGrid :=
  let delta : ℚ := if erase then -0.45 else 0.55
  let nextValue := min 1 (max 0 (g.values.getD index 0 + delta))
  if nextValue = g.values.getD index 0 then g
  else { g with values := g.values.set index nextValue }

/-- `clear()`: `this.values.fill(0)`. -/
def DrawingGrid.clear (g : DrawingGrid) : DrawingGrid :=
  { g with values := g.values.map (fun _ => 0) }

/-- `getPixels()`: `Float32Array.from(this.values)` — a fresh buffer
whose contents equal the grid's values. -/
def DrawingGrid.getPixels (g : DrawingGrid) : List ℚ :=
  g.values

/-- The pixel-mutating operations reachable on a grid: a draw paint, an
erase paint, or a clear. -/
inductive GridOp where
  | draw (index : ℕ)
  | erase (index : ℕ)
  | clear
deriving Repr, DecidableEq

/-- Applies one operation. -/
def applyGridOp (g : DrawingGrid) : GridOp → DrawingGrid
  | .draw index => g.paintCell index false
  | .erase index => g.paintCell index true
  | .clear => g.clear

/-- Applies a sequence of operations in order. -/
def applyGridOps (g : DrawingGrid) (ops : List GridOp) : DrawingGrid :=
  ops.foldl applyGridOp g

/-! ## Lemmas about the forward pass -/

theorem forwardLayers_fst_length (ls : List Layer) (cur : List ℚ) :
    (forwardLayers ls cur).1.length = ls.length := by
  induction ls generalizing cur with
  | nil => rfl
  | cons layer rest ih => simp [forwardLayers, ih]

theorem forwardLayers_snd_length (ls : List Layer) (cur : List ℚ) :
    (forwardLayers ls cur).2.length = ls.length := by
  induction ls generalizing cur with
  | nil => rfl
  | cons layer rest ih => simp [forwardLayers, ih]

theorem forwardLayers_pre_getD (ls : List Layer) (cur : List ℚ) (i : ℕ)
    (hi : i < ls.length) :
    (forwardLayers ls cur).2.getD i [] =
      layerLinear (ls.getD i default)
        ((cur :: (forwardLayers ls cur).1).getD i []) := by
  induction ls generalizing cur i with
  | nil => exact absurd hi (by simp)
  | cons layer rest ih =>
    cases i with
    | zero => simp [forwardLayers]
    | succ j =>
      have hj : j < rest.length := by simpa using hi
      simpa [forwardLayers] using
        ih (applyActivation layer (layerLinear layer cur)) j hj

theorem forwardLayers_act_getD (ls : List Layer) (cur : List ℚ) (i : ℕ)
    (hi : i < ls.length) :
    (cur :: (forwardLayers ls cur).1).getD (i + 1) [] =
      applyActivation (ls.getD i default) ((forwardLayers ls cur).2.getD i []) := by
  induction ls generalizing cur i with
  | nil => exact absurd hi (by simp)
  | cons layer rest ih =>
    cases i with
    | zero => simp [forwardLayers]
    | succ j =>
      have hj : j < rest.length := by simpa using hi
      simpa [forwardLayers] using
        ih (applyActivation layer (layerLinear layer cur)) j hj

theorem foldl_add_range (f : ℕ → ℚ) (b : ℚ) (n : ℕ) :
    (List.range n).foldl (fun sum k => sum + f k) b =
      b + ∑ k ∈ Finset.range n, f k := by
  induction n with
  | zero => simp
  | succ m ih =>
    rw [List.range_succ, List.foldl_append, ih, Finset.sum_range_succ]
    simp [add_assoc]

theorem dotBias_eq_sum (b : ℚ) (row current : List ℚ) :
    dotBias b row current =
      b + ∑ k ∈ Finset.range row.length, row.getD k 0 * current.getD k 0 := by
  simpa [dotBias] using
    foldl_add_range (fun k => row.getD k 0 * current.getD k 0) b row.length

/-- C1: with a non-empty layer list and a pixel vector of the
architecture's input width, `forward` normalizes the input as
`(pixels[i] - mean) / std`, starts the activation sequence with that
vector, records every layer's linear vector
`bias[j] + Σ_k weight[j][k] * current[k]` as its pre-activation, applies
ReLU (negatives to 0) when the layer's activation is `"relu"` and the
identity otherwise to obtain the next layer's input, and returns
`layer count + 1` activations and `layer count` pre-activations. -/
theorem forward_spec (net : MLPNetwork) (pixels : List ℚ)
    (hlayers : net.layers ≠ [])
    (hlen : (pixels.length : ℤ) = net.architecture.headD 0) :
    (net.forward pixels).normalizedInput =
        pixels.map (fun p => (p - net.normalization.mean) / net.normalization.std)
    ∧ (net.forward pixels).activations.headD [] = (net.forward pixels).normalizedInput
    ∧ (net.forward pixels).activations.length = net.layers.length + 1
    ∧ (net.forward pixels).preActivations.length = net.layers.length
    ∧ (∀ b row current, dotBias b row current =
        b + ∑ k ∈ Finset.range row.length, row.getD k 0 * current.getD k 0)
    ∧ (∀ i, i < net.layers.length →
        (net.forward pixels).preActivations.getD i [] =
            layerLinear (net.layers.getD i default)
              ((net.forward pixels).activations.getD i [])
        ∧ (net.forward pixels).activations.getD (i + 1) [] =
            applyActivation (net.layers.getD i default)
              ((net.forward pixels).preActivations.getD i [])
        ∧ ((net.layers.getD i default).activation = "relu" →
            (net.forward pixels).activations.getD (i + 1) [] =
              ((net.forward pixels).preActivations.getD i []).map
                (fun x => if x > 0 then x else 0))
        ∧ ((net.layers.getD i default).activation ≠ "relu" →
            (net.forward pixels).activations.getD (i + 1) [] =
              (net.forward pixels).preActivations.getD i [])) := by
  refine ⟨rfl, rfl, ?_, ?_, dotBias_eq_sum, ?_⟩
  · simp [MLPNetwork.forward, forwardLayers_fst_length]
  · simp [MLPNetwork.forward, forwardLayers_snd_length]
  · intro i hi
    refine ⟨forwardLayers_pre_getD _ _ i hi, forwardLayers_act_getD _ _ i hi, ?_, ?_⟩
    · intro hrelu
      refine (forwardLayers_act_getD _ _ i hi).trans ?_
      simp only [List.getD_eq_getElem?_getD] at hrelu
      simp [applyActivation, hrelu, MLPNetwork.forward]
    · intro hother
      refine (forwardLayers_act_getD _ _ i hi).trans ?_
      simp only [List.getD_eq_getElem?_getD] at hother
      simp [applyActivation, hother, MLPNetwork.forward]

/-- A concrete one-layer ReLU network used as a witness input. -/
def witnessNet : MLPNetwork :=
  ⟨⟨0, 1⟩, [1, 1], [⟨"dense_0", "relu", [[1]], [0]⟩]⟩

/-- Witness for `forward_spec`: its hypotheses hold at `witnessNet` with
the one-pixel input `[1]`. -/
theorem forward_spec_witness :
    witnessNet.layers ≠ []
    ∧ (([ (1 : ℚ) ].length : ℤ) = witnessNet.architecture.headD 0)
    ∧ ((witnessNet.forward [1]).normalizedInput =
        [(1 : ℚ)].map (fun p => (p - witnessNet.normalization.mean) / witnessNet.normalization.std)
    ∧ (witnessNet.forward [1]).activations.headD [] = (witnessNet.forward [1]).normalizedInput
    ∧ (witnessNet.forward [1]).activations.length = witnessNet.layers.length + 1
    ∧ (witnessNet.forward [1]).preActivations.length = witnessNet.layers.length
    ∧ (∀ b row current, dotBias b row current =
        b + ∑ k ∈ Finset.range row.length, row.getD k 0 * current.getD k 0)
    ∧ (∀ i, i < witnessNet.layers.length →
        (witnessNet.forward [1]).preActivations.getD i [] =
            layerLinear (witnessNet.layers.getD i default)
              ((witnessNet.forward [1]).activations.getD i [])
        ∧ (witnessNet.forward [1]).activations.getD (i + 1) [] =
            applyActivation (witnessNet.layers.getD i default)
              ((witnessNet.forward [1]).preActivations.getD i [])
        ∧ ((witnessNet.layers.getD i default).activation = "relu" →
            (witnessNet.forward [1]).activations.getD (i + 1) [] =
              ((witnessNet.forward [1]).preActivations.getD i []).map
                (fun x => if x > 0 then x else 0))
        ∧ ((witnessNet.layers.getD i default).activation ≠ "relu" →
            (witnessNet.forward [1]).activations.getD (i + 1) [] =
              (witnessNet.forward [1]).preActivations.getD i []))) :=
  ⟨by decide, by decide, forward_spec witnessNet [1] (by decide) (by decide)⟩

/-! ## Construction-time validation (there is none beyond the empty check) -/

/-- A network definition whose second layer's weight row has length 2
while the first layer outputs a single neuron: a dimension mismatch. -/
def mismatchedDef : NetworkDef :=
  ⟨some ⟨0, 1⟩, none,
    [⟨none, none, [[1, 1]], [0]⟩, ⟨none, none, [[1, 2]], [0]⟩]⟩

/-- The network the constructor produces from `mismatchedDef`. -/
def mismatchedNet : MLPNetwork :=
  ⟨⟨0, 1⟩, [2, 1, 1],
    [⟨"dense_0", "relu", [[1, 1]], [0]⟩, ⟨"dense_1", "relu", [[1, 2]], [0]⟩]⟩

/-- Counterexample to C2: `mismatchedDef` has a weight row whose length
(2) differs from the previous layer's output width (1), yet the
constructor succeeds — no `DimensionMismatch`/`InvalidDefinition` error
is raised at construction time, so `forward` is reachable with this
definition. -/
theorem construction_accepts_dimension_mismatch :
    ((mismatchedDef.layers.getD 1 default).weights.getD 0 []).length = 2
    ∧ (mismatchedDef.layers.getD 0 default).biases.length = 1
    ∧ MLPNetwork.make mismatchedDef = .ok mismatchedNet := by
  exact ⟨by decide, by decide, by rfl⟩

/-- C2 as amended: construction fails (with the `InvalidDefinition`
message) exactly when the layer list is empty; a weight-row-length
mismatch is not detected at construction time, and such a definition
constructs successfully, so the mismatch can reach `forward`. -/
theorem construction_fails_only_on_empty_layers (d : NetworkDef) :
    (d.layers = [] →
      MLPNetwork.make d = .error "Network definition must contain layers.")
    ∧ (d.layers ≠ [] → ∃ net, MLPNetwork.make d = .ok net) := by
  constructor
  · intro h
    simp [MLPNetwork.make, h]
  · intro h
    have hne : ¬ d.layers.isEmpty := by simp [List.isEmpty_iff, h]
    exact ⟨_, by rw [MLPNetwork.make, if_neg hne]⟩

/-- Witness for `construction_fails_only_on_empty_layers` at the
mismatched definition: its layer list is non-empty and construction
succeeds. -/
theorem construction_fails_only_on_empty_layers_witness :
    mismatchedDef.layers ≠ []
    ∧ ∃ net, MLPNetwork.make mismatchedDef = .ok net :=
  ⟨by decide, (construction_fails_only_on_empty_layers mismatchedDef).2 (by decide)⟩

/-! ## Unknown activation strings -/

theorem buildLayers_getD (k : ℕ) (ls : List LayerDef) (j : ℕ)
    (hj : j < ls.length) :
    (buildLayers k ls).getD j default = buildLayer (k + j) (ls.getD j default) := by
  induction ls generalizing k j with
  | nil => exact absurd hj (by simp)
  | cons l rest ih =>
    cases j with
    | zero => simp [buildLayers]
    | succ m =>
      have hm : m < rest.length := by simpa using hj
      have := ih (k + 1) m hm
      simpa [buildLayers, Nat.add_assoc, Nat.add_comm 1 m] using this

/-- C9: any activation string other than exactly `"relu"` makes the
layer act as the identity (its activation vector equals its
pre-activation vector); a missing activation field defaults to
`"relu"`; and the constructor accepts every activation string — a
non-empty definition always constructs, whatever names its layers
carry. -/
theorem unknown_activation_is_identity (net : MLPNetwork) (pixels : List ℚ)
    (i : ℕ) (d : NetworkDef) :
    ((net.layers.getD i default).activation ≠ "relu" → i < net.layers.length →
      (net.forward pixels).activations.getD (i + 1) [] =
        (net.forward pixels).preActivations.getD i [])
    ∧ (i < d.layers.length → ∀ net2, MLPNetwork.make d = .ok net2 →
        (net2.layers.getD i default).activation =
          ((d.layers.getD i default).activation).getD "relu")
    ∧ (d.layers ≠ [] → ∃ net2, MLPNetwork.make d = .ok net2) := by
  refine ⟨?_, ?_, ?_⟩
  · intro hother hi
    refine (forwardLayers_act_getD _ _ i hi).trans ?_
    simp only [List.getD_eq_getElem?_getD] at hother
    simp [applyActivation, hother, MLPNetwork.forward]
  · intro hi net2 hmk
    have hne : ¬ d.layers.isEmpty := by
      cases hd : d.layers with
      | nil => rw [hd] at hi; exact absurd hi (by simp)
      | cons a b => simp [hd]
    rw [MLPNetwork.make, if_neg hne] at hmk
    injection hmk with h2
    subst h2
    show ((buildLayers 0 d.layers).getD i default).activation =
      (d.layers.getD i default).activation.getD "relu"
    rw [buildLayers_getD 0 d.layers i hi]
    rfl
  · intro h
    have hne : ¬ d.layers.isEmpty := by simp [List.isEmpty_iff, h]
    exact ⟨_, by rw [MLPNetwork.make, if_neg hne]⟩

/-- A one-layer definition whose activation string is the unknown name
`"softmax"`. -/
def softmaxNamedDef : NetworkDef :=
  ⟨none, none, [⟨none, some "softmax", [[1]], [0]⟩]⟩

/-- The network built from `softmaxNamedDef`. -/
def softmaxNamedNet : MLPNetwork :=
  ⟨⟨0, 1⟩, [1, 1], [⟨"dense_0", "softmax", [[1]], [0]⟩]⟩

/-- Witness for `unknown_activation_is_identity`: at `softmaxNamedNet`
(activation `"softmax"`, not `"relu"`) the layer's activation vector
equals its pre-activation vector, the stored activation string is the
one from the definition, and the definition constructs. -/
theorem unknown_activation_is_identity_witness :
    ((softmaxNamedNet.layers.getD 0 default).activation ≠ "relu"
      ∧ 0 < softmaxNamedNet.layers.length
      ∧ (softmaxNamedNet.forward [2]).activations.getD 1 [] =
          (softmaxNamedNet.forward [2]).preActivations.getD 0 [])
    ∧ (0 < softmaxNamedDef.layers.length
      ∧ MLPNetwork.make softmaxNamedDef = .ok softmaxNamedNet
      ∧ (softmaxNamedNet.layers.getD 0 default).activation =
          ((softmaxNamedDef.layers.getD 0 default).activation).getD "relu")
    ∧ (softmaxNamedDef.layers ≠ []
      ∧ ∃ net2, MLPNetwork.make softmaxNamedDef = .ok net2) :=
  ⟨⟨by decide, by decide,
      (unknown_activation_is_identity softmaxNamedNet [2] 0 softmaxNamedDef).1
        (by decide) (by decide)⟩,
   ⟨by decide, by rfl,
      (unknown_activation_is_identity softmaxNamedNet [2] 0 softmaxNamedDef).2.1
        (by decide) softmaxNamedNet (by rfl)⟩,
   ⟨by decide,
      (unknown_activation_is_identity softmaxNamedNet [2] 0 softmaxNamedDef).2.2
        (by decide)⟩⟩

/-! ## softmax properties -/

theorem foldl_add_eq_sum (l : List ℚ) (a : ℚ) :
    l.foldl (fun acc value => acc + value) a = a + l.sum := by
  induction l generalizing a with
  | nil => simp
  | cons x xs ih => simp [ih, add_assoc]

theorem foldl_max_add (l : List ℚ) (a c : ℚ) :
    (l.map (fun v => v + c)).foldl max (a + c) = l.foldl max a + c := by
  induction l generalizing a with
  | nil => simp
  | cons x xs ih => simpa [max_add_add_right] using ih (max a x)

theorem jsMax_map_add (v : ℚ) (rest : List ℚ) (c : ℚ) :
    jsMax ((v :: rest).map (fun x => x + c)) = jsMax (v :: rest) + c := by
  simpa [jsMax] using foldl_max_add rest v c

theorem sum_map_div (l : List ℚ) (s : ℚ) :
    (l.map (fun v => v / s)).sum = l.sum / s := by
  induction l with
  | nil => simp
  | cons x xs ih => simp [ih, add_div]

/-- C4: properties of `softmax`.  For a non-empty input whose
exponentiated terms are non-negative with at least one nonzero, the
output is non-negative and sums to exactly 1; `softmax` is invariant
under adding a constant to every input element; the computed vector is
exactly the max-subtracted (numerically stabilized) exponentials over
their sum; and when the exponentiated sum is exactly zero every
probability is reported as 0.  `exp` is arbitrary, so the statements
hold in particular for the real exponential. -/
theorem softmax_spec (exp : ℚ → ℚ) (values : List ℚ) (c : ℚ) :
    (values ≠ [] → (∀ x, 0 ≤ exp x) →
      (∃ v ∈ values, exp (v - jsMax values) ≠ 0) →
      (∀ p ∈ softmax exp values, 0 ≤ p) ∧ (softmax exp values).sum = 1)
    ∧ softmax exp (values.map (fun v => v + c)) = softmax exp values
    ∧ (values ≠ [] →
        softmax exp values =
          (values.map (fun v => exp (v - jsMax values))).map
            (fun e =>
              if (values.map (fun v => exp (v - jsMax values))).sum = 0 then 0
              else e / (values.map (fun v => exp (v - jsMax values))).sum))
    ∧ ((values.map (fun v => exp (v - jsMax values))).sum = 0 →
        softmax exp values = values.map (fun _ => 0)) := by
  have hunfold : ∀ v rest, softmax exp (v :: rest) =
      ((v :: rest).map (fun x => exp (x - jsMax (v :: rest)))).map
        (fun e =>
          if ((v :: rest).map (fun x => exp (x - jsMax (v :: rest)))).sum = 0 then 0
          else e / ((v :: rest).map (fun x => exp (x - jsMax (v :: rest)))).sum) := by
    intro v rest
    simp only [softmax]
    rw [foldl_add_eq_sum, zero_add]
  refine ⟨?_, ?_, ?_, ?_⟩
  · intro hne hpos hsome
    obtain ⟨v, rest, rfl⟩ : ∃ v rest, values = v :: rest := by
      cases values with
      | nil => exact absurd rfl hne
      | cons v rest => exact ⟨v, rest, rfl⟩
    set exps := (v :: rest).map (fun x => exp (x - jsMax (v :: rest))) with hexps
    have hexpsnn : ∀ e ∈ exps, 0 ≤ e := by
      intro e he
      rw [hexps, List.mem_map] at he
      obtain ⟨x, _, rfl⟩ := he
      exact hpos _
    have hsumnn : 0 ≤ exps.sum := List.sum_nonneg hexpsnn
    have hsumpos : 0 < exps.sum := by
      obtain ⟨w, hw, hwne⟩ := hsome
      have hmem : exp (w - jsMax (v :: rest)) ∈ exps := by
        rw [hexps, List.mem_map]
        exact ⟨w, hw, rfl⟩
      have hle : exp (w - jsMax (v :: rest)) ≤ exps.sum :=
        List.single_le_sum hexpsnn _ hmem
      have hgt : 0 < exp (w - jsMax (v :: rest)) :=
        lt_of_le_of_ne (hpos _) (Ne.symm hwne)
      exact lt_of_lt_of_le hgt hle
    have hsumne : exps.sum ≠ 0 := ne_of_gt hsumpos
    constructor
    · intro p hp
      rw [hunfold v rest, List.mem_map] at hp
      obtain ⟨e, he, rfl⟩ := hp
      rw [if_neg hsumne]
      exact div_nonneg (hexpsnn e he) hsumnn
    · rw [hunfold v rest]
      have : (exps.map (fun e => if exps.sum = 0 then 0 else e / exps.sum)) =
          exps.map (fun e => e / exps.sum) :=
        List.map_congr_left (fun e _ => by rw [if_neg hsumne])
      rw [this, sum_map_div, div_self hsumne]
  · cases values with
    | nil => simp [softmax]
    | cons v rest =>
      have hmax := jsMax_map_add v rest c
      have hexpeq :
          ((v :: rest).map (fun x => x + c)).map
              (fun x => exp (x - jsMax ((v :: rest).map (fun y => y + c)))) =
            (v :: rest).map (fun x => exp (x - jsMax (v :: rest))) := by
        rw [hmax, List.map_map]
        exact List.map_congr_left (fun a _ => by
          have : a + c - (jsMax (v :: rest) + c) = a - jsMax (v :: rest) := by ring
          simp [Function.comp, this])
      have hred : (v :: rest).map (fun x => x + c) =
          (v + c) :: rest.map (fun x => x + c) := by simp
      rw [hred] at hexpeq ⊢
      rw [hunfold (v + c) (rest.map (fun x => x + c)), hunfold v rest]
      rw [show ((v + c) :: rest.map (fun x => x + c)) =
          (v :: rest).map (fun x => x + c) from by simp] at hexpeq ⊢
      rw [hexpeq]
  · intro hne
    obtain ⟨v, rest, rfl⟩ : ∃ v rest, values = v :: rest := by
      cases values with
      | nil => exact absurd rfl hne
      | cons v rest => exact ⟨v, rest, rfl⟩
    exact hunfold v rest
  · intro hzero
    cases values with
    | nil => simp [softmax]
    | cons v rest =>
      rw [hunfold v rest]
      have := List.map_congr_left
        (l := (v :: rest).map (fun x => exp (x - jsMax (v :: rest))))
        (f := fun e =>
          if ((v :: rest).map (fun x => exp (x - jsMax (v :: rest)))).sum = 0 then (0 : ℚ)
          else e / ((v :: rest).map (fun x => exp (x - jsMax (v :: rest)))).sum)
        (g := fun _ => (0 : ℚ))
        (fun e _ => by
          show (if ((v :: rest).map (fun x => exp (x - jsMax (v :: rest)))).sum = 0 then (0 : ℚ)
              else e / ((v :: rest).map (fun x => exp (x - jsMax (v :: rest)))).sum) = 0
          rw [if_pos hzero])
      rw [this, List.map_map]
      rfl

/-- Witness for `softmax_spec` at `exp := fun _ => 1` and input
`[0, 0]`: the hypotheses hold and the output `[1/2, 1/2]` is
non-negative and sums to 1. -/
theorem softmax_spec_witness :
    ([ (0 : ℚ), 0 ] ≠ [])
    ∧ (∀ x : ℚ, 0 ≤ (fun _ : ℚ => (1 : ℚ)) x)
    ∧ (∃ v ∈ [(0 : ℚ), 0], (fun _ : ℚ => (1 : ℚ)) (v - jsMax [0, 0]) ≠ 0)
    ∧ ((∀ p ∈ softmax (fun _ => 1) [(0 : ℚ), 0], 0 ≤ p)
        ∧ (softmax (fun _ => 1) [(0 : ℚ), 0]).sum = 1) :=
  ⟨by decide, fun x => by norm_num, ⟨0, by decide, by norm_num⟩,
    (softmax_spec (fun _ => 1) [0, 0] 0).1 (by decide) (fun x => by norm_num)
      ⟨0, by decide, by norm_num⟩⟩

/-! ## Spatial-layout properties -/

theorem ceilSqrt_pos (n : ℕ) (hn : 0 < n) : 0 < ceilSqrt n := by
  unfold ceilSqrt
  by_cases h : Nat.sqrt n * Nat.sqrt n = n
  · rw [if_pos h]
    rcases Nat.eq_zero_or_pos (Nat.sqrt n) with hz | hp
    · rw [hz] at h
      simp at h
      omega
    · exact hp
  · rw [if_neg h]
    omega

theorem le_jsCeilDiv_mul (n c : ℕ) (hc : 0 < c) : n ≤ jsCeilDiv n c * c := by
  unfold jsCeilDiv
  rw [if_neg (Nat.pos_iff_ne_zero.mp hc)]
  have hmod := Nat.div_add_mod (n + c - 1) c
  have hlt : (n + c - 1) % c < c := Nat.mod_lt _ hc
  rw [Nat.mul_comm]
  generalize hK : c * ((n + c - 1) / c) = K at hmod
  omega

/-- C8: the spatial layout returns exactly `neuronCount` positions for
every layer index and count; it is a deterministic pure function of its
arguments; and the positions built for a network depend only on its
architecture — two networks with the same architecture (whatever their
weights) get identical coordinates. -/
theorem layout_spec (opts : VisOptions) (layerIndex neuronCount : ℕ)
    (layerX : ℚ) (net1 net2 : MLPNetwork) :
    (computeLayerPositions opts layerIndex neuronCount layerX).length = neuronCount
    ∧ computeLayerPositions opts layerIndex neuronCount layerX =
        computeLayerPositions opts layerIndex neuronCount layerX
    ∧ (net1.architecture = net2.architecture →
        buildPositions opts net1 = buildPositions opts net2) := by
  refine ⟨?_, rfl, ?_⟩
  · unfold computeLayerPositions
    by_cases h0 : layerIndex = 0
    · rw [if_pos h0]
      by_cases h28 : neuronCount = 28 * 28
      · simp [h28]
      · rcases Nat.eq_zero_or_pos neuronCount with hz | hpos
        · subst hz
          simp [ceilSqrt, jsCeilDiv]
        · have hc : 0 < ceilSqrt neuronCount := ceilSqrt_pos _ hpos
          have hle := le_jsCeilDiv_mul neuronCount (ceilSqrt neuronCount) hc
          simp only [if_neg h28, List.length_map, List.length_take, List.length_range]
          omega
    · rw [if_neg h0]
      simp
  · intro h
    unfold buildPositions
    rw [h]

/-- Two architectures-equal networks with different weights, for the
layout witness. -/
def layoutNetA : MLPNetwork := ⟨⟨0, 1⟩, [2, 1], [⟨"dense_0", "relu", [[1, 2]], [3]⟩]⟩

/-- Same architecture as `layoutNetA`, different weights and biases. -/
def layoutNetB : MLPNetwork := ⟨⟨0, 1⟩, [2, 1], [⟨"dense_0", "relu", [[-7, 5]], [11]⟩]⟩

/-- Witness for `layout_spec`: the architecture-equality hypothesis holds
for `layoutNetA`/`layoutNetB` and their built positions coincide. -/
theorem layout_spec_witness :
    layoutNetA.architecture = layoutNetB.architecture
    ∧ buildPositions ⟨5.5, 0.26, 20, 0.32, 0.9⟩ layoutNetA =
        buildPositions ⟨5.5, 0.26, 20, 0.32, 0.9⟩ layoutNetB :=
  ⟨by decide,
    (layout_spec ⟨5.5, 0.26, 20, 0.32, 0.9⟩ 0 0 0 layoutNetA layoutNetB).2.2 (by decide)⟩

/-! ## Drawing-grid invariant -/

theorem paintCell_bounds (g : DrawingGrid) (index : ℕ) (erase : Bool)
    (hg : ∀ x ∈ g.values, 0 ≤ x ∧ x ≤ 1) :
    ∀ x ∈ (g.paintCell index erase).values, 0 ≤ x ∧ x ≤ 1 := by
  intro x hx
  unfold DrawingGrid.paintCell at hx
  by_cases hsame :
      min 1 (max 0 (g.values.getD index 0 + if erase then -(0.45 : ℚ) else 0.55)) =
        g.values.getD index 0
  · rw [if_pos hsame] at hx
    exact hg x hx
  · rw [if_neg hsame] at hx
    rcases List.mem_or_eq_of_mem_set hx with hmem | heq
    · exact hg x hmem
    · subst heq
      constructor
      · exact le_min (by norm_num) (le_max_left 0 _)
      · exact min_le_left 1 _

theorem applyGridOp_bounds (g : DrawingGrid) (op : GridOp)
    (hg : ∀ x ∈ g.values, 0 ≤ x ∧ x ≤ 1) :
    ∀ x ∈ (applyGridOp g op).values, 0 ≤ x ∧ x ≤ 1 := by
  cases op with
  | draw index => exact paintCell_bounds g index false hg
  | erase index => exact paintCell_bounds g index true hg
  | clear =>
    intro x hx
    unfold applyGridOp DrawingGrid.clear at hx
    simp only [List.mem_map] at hx
    obtain ⟨y, _, rfl⟩ := hx
    norm_num

theorem applyGridOps_bounds (g : DrawingGrid) (ops : List GridOp)
    (hg : ∀ x ∈ g.values, 0 ≤ x ∧ x ≤ 1) :
    ∀ x ∈ (applyGridOps g ops).values, 0 ≤ x ∧ x ≤ 1 := by
  induction ops generalizing g with
  | nil => exact hg
  | cons op rest ih => exact ih (applyGridOp g op) (applyGridOp_bounds g op hg)

/-- C10: starting from the all-zero buffer, any sequence of draw
(+0.55), erase (−0.45) and clear operations keeps every pixel value in
[0, 1], because each paint clamps with `min(1, max(0, value + delta))`;
and `getPixels` returns a buffer whose contents equal the grid's values
(a fresh copy in the source, so callers cannot mutate grid state through
it). -/
theorem grid_pixels_bounded (rows cols : ℕ) (ops : List GridOp) (v : ℚ) :
    (v ∈ (applyGridOps (DrawingGrid.init rows cols) ops).values →
      0 ≤ v ∧ v ≤ 1)
    ∧ (applyGridOps (DrawingGrid.init rows cols) ops).getPixels =
        (applyGridOps (DrawingGrid.init rows cols) ops).values := by
  constructor
  · intro hv
    refine applyGridOps_bounds _ ops ?_ v hv
    intro x hx
    have := List.eq_of_mem_replicate hx
    subst this
    norm_num
  · rfl

/-- Witness for `grid_pixels_bounded`: after one draw on a 1×1 grid the
single pixel value 0.55 is in the buffer and lies in [0, 1]. -/
theorem grid_pixels_bounded_witness :
    ((0.55 : ℚ) ∈ (applyGridOps (DrawingGrid.init 1 1) [GridOp.draw 0]).values)
    ∧ (0 ≤ (0.55 : ℚ) ∧ (0.55 : ℚ) ≤ 1) := by
  have hval : (applyGridOps (DrawingGrid.init 1 1) [GridOp.draw 0]).values = [0.55] := by
    norm_num [applyGridOps, applyGridOp, DrawingGrid.paintCell, DrawingGrid.init]
  have hmem : (0.55 : ℚ) ∈ (applyGridOps (DrawingGrid.init 1 1) [GridOp.draw 0]).values := by
    rw [hval]
    exact List.mem_singleton.mpr rfl
  exact ⟨hmem, (grid_pixels_bounded 1 1 [GridOp.draw 0] 0.55).1 hmem⟩

/-! ## Connection-selector properties -/

/-- The order the stable descending sort establishes: strictly larger
magnitude first, ties resolved by the original column order. -/
def candBefore (a b : Candidate) : Prop :=
  b.magnitude < a.magnitude ∨ (a.magnitude = b.magnitude ∧ a.sourceIndex < b.sourceIndex)

theorem candidatesForRow_mem_spec (t : ℕ) (row : List (Option ℚ)) :
    ∀ s, ∀ c ∈ candidatesForRow t s row,
      c.targetIndex = t ∧ c.magnitude = |c.weight| ∧ s ≤ c.sourceIndex
        ∧ row.get? (c.sourceIndex - s) = some (some c.weight) := by
  induction row with
  | nil => intro s c hc; exact absurd hc (by simp [candidatesForRow])
  | cons w rest ih =>
    intro s c hc
    cases w with
    | some q =>
      rw [candidatesForRow] at hc
      rcases List.mem_cons.mp hc with rfl | htail
      · exact ⟨rfl, rfl, le_refl s, by simp⟩
      · obtain ⟨h1, h2, h3, h4⟩ := ih (s + 1) c htail
        refine ⟨h1, h2, by omega, ?_⟩
        have hpos : c.sourceIndex - s = (c.sourceIndex - (s + 1)) + 1 := by omega
        rw [hpos]
        simpa using h4
    | none =>
      rw [candidatesForRow] at hc
      obtain ⟨h1, h2, h3, h4⟩ := ih (s + 1) c hc
      refine ⟨h1, h2, by omega, ?_⟩
      have hpos : c.sourceIndex - s = (c.sourceIndex - (s + 1)) + 1 := by omega
      rw [hpos]
      simpa using h4

theorem mem_candidatesForRow_of_get (t : ℕ) (row : List (Option ℚ)) :
    ∀ s k q, row.get? k = some (some q) →
      (⟨s + k, t, q, |q|⟩ : Candidate) ∈ candidatesForRow t s row := by
  induction row with
  | nil => intro s k q hk; simp at hk
  | cons w rest ih =>
    intro s k q hk
    cases k with
    | zero =>
      simp at hk
      subst hk
      rw [candidatesForRow]
      simp
    | succ m =>
      have hm : rest.get? m = some (some q) := by simpa using hk
      have := ih (s + 1) m q hm
      cases w with
      | some q2 =>
        rw [candidatesForRow]
        refine List.mem_cons.mpr (Or.inr ?_)
        simpa [Nat.add_assoc, Nat.add_comm 1 m] using this
      | none =>
        rw [candidatesForRow]
        simpa [Nat.add_assoc, Nat.add_comm 1 m] using this

theorem candidatesForRow_pairwise_idx (t : ℕ) (row : List (Option ℚ)) :
    ∀ s, List.Pairwise (fun a b => a.sourceIndex < b.sourceIndex)
      (candidatesForRow t s row) := by
  induction row with
  | nil => intro s; simp [candidatesForRow]
  | cons w rest ih =>
    intro s
    cases w with
    | some q =>
      rw [candidatesForRow]
      refine List.Pairwise.cons ?_ (ih (s + 1))
      intro b hb
      have := (candidatesForRow_mem_spec t rest (s + 1) b hb).2.2.1
      simpa using lt_of_lt_of_le (Nat.lt_succ_self s) this
    | none =>
      rw [candidatesForRow]
      exact ih (s + 1)

theorem candidatesForRow_length_le (t : ℕ) (row : List (Option ℚ)) :
    ∀ s, (candidatesForRow t s row).length ≤ row.length := by
  induction row with
  | nil => intro s; simp [candidatesForRow]
  | cons w rest ih =>
    intro s
    cases w with
    | some q =>
      rw [candidatesForRow]
      simpa using ih (s + 1)
    | none =>
      rw [candidatesForRow]
      calc (candidatesForRow t (s + 1) rest).length ≤ rest.length := ih (s + 1)
        _ ≤ (none :: rest).length := by simp

theorem candidatesForRow_length_finite (t : ℕ) (row : List (Option ℚ))
    (hfin : ∀ w ∈ row, w ≠ none) :
    ∀ s, (candidatesForRow t s row).length = row.length := by
  induction row with
  | nil => intro s; simp [candidatesForRow]
  | cons w rest ih =>
    intro s
    cases w with
    | some q =>
      rw [candidatesForRow]
      have := ih (fun x hx => hfin x (List.mem_cons_of_mem (some q) hx)) (s + 1)
      simp [this]
    | none => exact absurd rfl (hfin none (List.mem_cons_self none rest))

theorem insertDesc_perm (c : Candidate) (l : List Candidate) :
    (insertDesc c l).Perm (c :: l) := by
  induction l with
  | nil => simp [insertDesc]
  | cons x xs ih =>
    rw [insertDesc]
    by_cases h : x.magnitude ≤ c.magnitude
    · rw [if_pos h]
    · rw [if_neg h]
      exact (List.Perm.cons x ih).trans (List.Perm.swap c x xs)

theorem sortCandidates_perm (l : List Candidate) :
    (sortCandidates l).Perm l := by
  induction l with
  | nil => simp [sortCandidates]
  | cons x xs ih =>
    rw [sortCandidates]
    exact (insertDesc_perm x (sortCandidates xs)).trans (List.Perm.cons x ih)

theorem insertDesc_pairwise (c : Candidate) (l : List Candidate)
    (hl : List.Pairwise candBefore l)
    (hidx : ∀ x ∈ l, c.sourceIndex < x.sourceIndex) :
    List.Pairwise candBefore (insertDesc c l) := by
  induction l with
  | nil => simp [insertDesc, List.Pairwise.cons]
  | cons x xs ih =>
    rw [insertDesc]
    by_cases h : x.magnitude ≤ c.magnitude
    · rw [if_pos h]
      refine List.Pairwise.cons ?_ hl
      intro y hy
      rcases List.mem_cons.mp hy with rfl | hyxs
      · rcases lt_or_eq_of_le h with hlt | heq
        · exact Or.inl hlt
        · exact Or.inr ⟨heq.symm, hidx y (List.mem_cons_self y xs)⟩
      · have hxy : candBefore x y := (List.pairwise_cons.mp hl).1 y hyxs
        have hymag : y.magnitude ≤ c.magnitude := by
          rcases hxy with hlt | ⟨heq, _⟩
          · exact le_trans (le_of_lt hlt) h
          · exact le_trans (le_of_eq heq.symm) h
        rcases lt_or_eq_of_le hymag with hlt | heq
        · exact Or.inl hlt
        · exact Or.inr ⟨heq.symm, hidx y (List.mem_cons_of_mem x hyxs)⟩
    · rw [if_neg h]
      have hxs := (List.pairwise_cons.mp hl).2
      refine List.Pairwise.cons ?_
        (ih hxs (fun y hy => hidx y (List.mem_cons_of_mem x hy)))
      intro y hy
      have hy2 : y ∈ c :: xs := (insertDesc_perm c xs).mem_iff.mp hy
      rcases List.mem_cons.mp hy2 with rfl | hyxs
      · exact Or.inl (lt_of_not_le h)
      · exact (List.pairwise_cons.mp hl).1 y hyxs

theorem sortCandidates_pairwise (l : List Candidate)
    (h : List.Pairwise (fun a b => a.sourceIndex < b.sourceIndex) l) :
    List.Pairwise candBefore (sortCandidates l) := by
  induction l with
  | nil => simp [sortCandidates]
  | cons x xs ih =>
    rw [sortCandidates]
    obtain ⟨hhead, htail⟩ := List.pairwise_cons.mp h
    refine insertDesc_pairwise x (sortCandidates xs) (ih htail) ?_
    intro y hy
    exact hhead y ((sortCandidates_perm xs).mem_iff.mp hy)

theorem selectRow_eq_take (limit t : ℕ) (row : List (Option ℚ)) :
    selectRow limit t row =
      ((sortCandidates (candidatesForRow t 0 row)).take limit).map Candidate.toEdge := by
  unfold selectRow
  rw [← List.take_length (l := sortCandidates (candidatesForRow t 0 row)), List.take_take]

theorem selectRow_mem_candidates (limit t : ℕ) (row : List (Option ℚ)) :
    ∀ e ∈ selectRow limit t row, ∃ c ∈ candidatesForRow t 0 row,
      c.toEdge = e ∧ c ∈ (sortCandidates (candidatesForRow t 0 row)).take limit := by
  intro e he
  rw [selectRow_eq_take] at he
  obtain ⟨c, hc, rfl⟩ := List.mem_map.mp he
  have hsorted : c ∈ sortCandidates (candidatesForRow t 0 row) :=
    List.Sublist.mem hc (List.take_sublist _ _)
  exact ⟨c, (sortCandidates_perm _).mem_iff.mp hsorted, rfl, hc⟩

theorem selectRow_target (limit t : ℕ) (row : List (Option ℚ)) :
    ∀ e ∈ selectRow limit t row, e.targetIndex = t := by
  intro e he
  obtain ⟨c, hc, rfl, _⟩ := selectRow_mem_candidates limit t row e he
  have := (candidatesForRow_mem_spec t row 0 c hc).1
  simpa [Candidate.toEdge] using this

theorem selectRow_length (limit t : ℕ) (row : List (Option ℚ)) :
    (selectRow limit t row).length = min limit (candidatesForRow t 0 row).length := by
  rw [selectRow_eq_take, List.length_map, List.length_take,
    (sortCandidates_perm (candidatesForRow t 0 row)).length_eq]

theorem selectAll_target_ge (limit : ℕ) (rows : List (List (Option ℚ))) :
    ∀ t0, ∀ e ∈ selectAll limit t0 rows, t0 ≤ e.targetIndex := by
  induction rows with
  | nil => intro t0 e he; exact absurd he (by simp [selectAll])
  | cons row rest ih =>
    intro t0 e he
    rw [selectAll] at he
    rcases List.mem_append.mp he with hhead | htail
    · exact le_of_eq (selectRow_target limit t0 row e hhead).symm
    · exact le_trans (Nat.le_succ t0) (ih (t0 + 1) e htail)

theorem selectAll_filter (limit : ℕ) (rows : List (List (Option ℚ))) :
    ∀ t0 t, t0 ≤ t →
      (selectAll limit t0 rows).filter (fun e => e.targetIndex == t) =
        (match rows.get? (t - t0) with
         | some row => selectRow limit t row
         | none => []) := by
  induction rows with
  | nil => intro t0 t ht; simp [selectAll]
  | cons row rest ih =>
    intro t0 t ht
    rw [selectAll, List.filter_append]
    rcases eq_or_lt_of_le ht with rfl | hlt
    · have hkeep : (selectRow limit t0 row).filter (fun e => e.targetIndex == t0) =
          selectRow limit t0 row :=
        List.filter_eq_self.mpr (fun e he => by
          simpa using selectRow_target limit t0 row e he)
      have hdrop : (selectAll limit (t0 + 1) rest).filter
          (fun e => e.targetIndex == t0) = [] :=
        List.filter_eq_nil_iff.mpr (fun e he => by
          have := selectAll_target_ge limit rest (t0 + 1) e he
          simp only [beq_iff_eq]
          omega)
      rw [hkeep, hdrop, List.append_nil]
      simp
    · have hdrop : (selectRow limit t0 row).filter (fun e => e.targetIndex == t) = [] :=
        List.filter_eq_nil_iff.mpr (fun e he => by
          have := selectRow_target limit t0 row e he
          simp only [beq_iff_eq]
          omega)
      rw [hdrop, List.nil_append, ih (t0 + 1) t hlt]
      have hsub : t - t0 = (t - (t0 + 1)) + 1 := by omega
      rw [hsub]
      simp

theorem findImportantConnections_filter (limit t : ℕ)
    (weights : List (List (Option ℚ))) (ht : t < weights.length) :
    (findImportantConnections limit weights).selected.filter
        (fun e => e.targetIndex == t) =
      selectRow limit t (weights.getD t []) := by
  have hget : weights.get? t = some (weights.getD t []) := by
    rw [List.get?_eq_getElem?, List.getD_eq_getElem?_getD,
      List.getElem?_eq_getElem ht]
    rfl
  have := selectAll_filter limit weights 0 t (Nat.zero_le t)
  rw [Nat.sub_zero, hget] at this
  exact this

/-- The per-target top-K property of the selector at target `t`: at most
`min(limit, inputWidth)` edges; every returned edge is a finite entry of
the row; every returned edge's magnitude dominates every non-returned
finite candidate of the same target; and the returned edges are ordered
by descending magnitude with ties in original column order. -/
def TopKSpec (limit : ℕ) (weights : List (List (Option ℚ))) (t : ℕ) : Prop :=
  ((findImportantConnections limit weights).selected.filter
      (fun e => e.targetIndex == t)).length ≤ min limit (weights.getD t []).length
  ∧ (∀ e ∈ (findImportantConnections limit weights).selected.filter
        (fun e => e.targetIndex == t),
      (weights.getD t []).get? e.sourceIndex = some (some e.weight))
  ∧ (∀ e ∈ (findImportantConnections limit weights).selected.filter
        (fun e => e.targetIndex == t),
      ∀ s q, (weights.getD t []).get? s = some (some q) →
        (∀ e2 ∈ (findImportantConnections limit weights).selected.filter
            (fun e => e.targetIndex == t), e2.sourceIndex ≠ s) →
        |q| ≤ |e.weight|)
  ∧ List.Pairwise
      (fun a b => |b.weight| < |a.weight|
        ∨ (|a.weight| = |b.weight| ∧ a.sourceIndex < b.sourceIndex))
      ((findImportantConnections limit weights).selected.filter
        (fun e => e.targetIndex == t))

/-- C3: `findImportantConnections` returns, for every target neuron `t`
of the layer, at most `min(limit, inputWidth)` edges; every returned
edge's magnitude is at least the magnitude of every non-returned finite
candidate of the same target (descending stable sort, ties broken by
original column order); and non-finite weight entries are never among
the returned edges (each returned edge maps back to a finite row entry)
while never aborting selection. -/
theorem connectionSelector_topK (limit : ℕ) (weights : List (List (Option ℚ)))
    (t : ℕ) (ht : t < weights.length) : TopKSpec limit weights t := by
  have hfilter := findImportantConnections_filter limit t weights ht
  set row := weights.getD t [] with hrow
  set cands := candidatesForRow t 0 row with hcands
  set sorted := sortCandidates cands with hsorted
  have hpair : List.Pairwise candBefore sorted :=
    sortCandidates_pairwise cands (candidatesForRow_pairwise_idx t row 0)
  have hsplit : sorted = sorted.take limit ++ sorted.drop limit :=
    (List.take_append_drop limit sorted).symm
  have hpairsplit := List.pairwise_append.mp (hsplit ▸ hpair)
  refine ⟨?_, ?_, ?_, ?_⟩
  · rw [hfilter, selectRow_length, ← hrow]
    have hle := candidatesForRow_length_le t row 0
    omega
  · intro e he
    rw [hfilter] at he
    obtain ⟨c, hc, rfl, _⟩ := selectRow_mem_candidates limit t row e he
    have hspec := candidatesForRow_mem_spec t row 0 c hc
    have := hspec.2.2.2
    rw [Nat.sub_zero] at this
    exact this
  · intro e he s q hsq hnot
    rw [hfilter] at he
    obtain ⟨c, hc, rfl, htake⟩ := selectRow_mem_candidates limit t row e he
    have hcmag : c.magnitude = |c.weight| := (candidatesForRow_mem_spec t row 0 c hc).2.1
    have hc0 : (⟨s, t, q, |q|⟩ : Candidate) ∈ cands := by
      have := mem_candidatesForRow_of_get t row 0 s q hsq
      simpa using this
    have hc0sorted : (⟨s, t, q, |q|⟩ : Candidate) ∈ sorted :=
      (sortCandidates_perm cands).mem_iff.mpr hc0
    have hc0nottake : (⟨s, t, q, |q|⟩ : Candidate) ∉ sorted.take limit := by
      intro hmem
      have hedge : Candidate.toEdge ⟨s, t, q, |q|⟩ ∈ selectRow limit t row := by
        rw [selectRow_eq_take]
        exact List.mem_map.mpr ⟨_, hmem, rfl⟩
      have := hnot (Candidate.toEdge ⟨s, t, q, |q|⟩) (by rw [hfilter]; exact hedge)
      exact this rfl
    have hc0drop : (⟨s, t, q, |q|⟩ : Candidate) ∈ sorted.drop limit := by
      rcases List.mem_append.mp (hsplit ▸ hc0sorted) with h1 | h2
      · exact absurd h1 hc0nottake
      · exact h2
    have hrel : candBefore c ⟨s, t, q, |q|⟩ :=
      hpairsplit.2.2 c htake _ hc0drop
    rcases hrel with hlt | ⟨heq, _⟩
    · have : |q| < c.magnitude := hlt
      rw [hcmag] at this
      simpa [Candidate.toEdge] using le_of_lt this
    · have : c.magnitude = |q| := heq
      rw [hcmag] at this
      simpa [Candidate.toEdge] using le_of_eq this.symm
  · rw [hfilter, selectRow_eq_take]
    rw [List.pairwise_map]
    have hpairtake : List.Pairwise candBefore (sorted.take limit) :=
      List.Pairwise.sublist (List.take_sublist limit sorted) hpair
    refine List.Pairwise.imp_of_mem ?_ hpairtake
    intro a b ha hb hab
    have hamem : a ∈ cands :=
      (sortCandidates_perm cands).mem_iff.mp
        (List.Sublist.mem ha (List.take_sublist _ _))
    have hbmem : b ∈ cands :=
      (sortCandidates_perm cands).mem_iff.mp
        (List.Sublist.mem hb (List.take_sublist _ _))
    have hamag : a.magnitude = |a.weight| := (candidatesForRow_mem_spec t row 0 a hamem).2.1
    have hbmag : b.magnitude = |b.weight| := (candidatesForRow_mem_spec t row 0 b hbmem).2.1
    rcases hab with hlt | ⟨heq, hidx⟩
    · left
      rw [hamag, hbmag] at hlt
      simpa [Candidate.toEdge] using hlt
    · right
      rw [hamag, hbmag] at heq
      exact ⟨by simpa [Candidate.toEdge] using heq, by simpa [Candidate.toEdge] using hidx⟩

/-- Witness for `connectionSelector_topK`: target 0 of a one-row layer
containing one non-finite and two finite weights, limit 2. -/
theorem connectionSelector_topK_witness :
    0 < ([[some (1 : ℚ), none, some (-3)]] : List (List (Option ℚ))).length
    ∧ TopKSpec 2 [[some (1 : ℚ), none, some (-3)]] 0 :=
  ⟨by decide, connectionSelector_topK 2 [[some (1 : ℚ), none, some (-3)]] 0 (by decide)⟩

/-- Counterexample to C5: with `limit = 1` and a single target whose only
incoming weight is non-finite, the selector returns no edge for that
target although `min(limit, inputWidth) = 1`. -/
theorem connectionSelector_can_starve_target :
    ¬ (min 1 ([(none : Option ℚ)].length) ≤
        ((findImportantConnections 1 [[(none : Option ℚ)]]).selected.filter
          (fun e => e.targetIndex == 0)).length) := by
  decide

/-- C5 as amended: every target neuron receives exactly
`min(limit, number of finite incoming weights)` edges — hence at least
`min(limit, inputWidth)` whenever all of that target's incoming weights
are finite; a target whose row contains non-finite entries can receive
fewer. -/
theorem connectionSelector_perTarget_count (limit : ℕ)
    (weights : List (List (Option ℚ))) (t : ℕ) (ht : t < weights.length) :
    ((findImportantConnections limit weights).selected.filter
        (fun e => e.targetIndex == t)).length =
      min limit (candidatesForRow t 0 (weights.getD t [])).length
    ∧ ((∀ w ∈ weights.getD t [], w ≠ none) →
        min limit (weights.getD t []).length ≤
          ((findImportantConnections limit weights).selected.filter
            (fun e => e.targetIndex == t)).length) := by
  have hfilter := findImportantConnections_filter limit t weights ht
  constructor
  · rw [hfilter, selectRow_length]
  · intro hfin
    rw [hfilter, selectRow_length,
      candidatesForRow_length_finite t (weights.getD t []) hfin 0]

/-- Witness for `connectionSelector_perTarget_count`: an all-finite row
receives exactly `min(limit, inputWidth)` edges. -/
theorem connectionSelector_perTarget_count_witness :
    0 < ([[some (2 : ℚ), some 3]] : List (List (Option ℚ))).length
    ∧ (∀ w ∈ ([some (2 : ℚ), some 3] : List (Option ℚ)), w ≠ none)
    ∧ min 1 ([some (2 : ℚ), some 3] : List (Option ℚ)).length ≤
        ((findImportantConnections 1 [[some (2 : ℚ), some 3]]).selected.filter
          (fun e => e.targetIndex == 0)).length :=
  ⟨by decide, by decide,
    ((connectionSelector_perTarget_count 1 [[some (2 : ℚ), some 3]] 0 (by decide)).2
      (by decide))⟩

/-! ## Node-recoloring properties -/

/-- The claim-side intensity formula for C6, following the spec's words:
the neuron's display-activation magnitude divided by that layer's
maximum absolute actual activation, with the 1e-6 floor (safe fallback
scale 1), for every layer including the input layer. -/
def specNodeIntensity (displayActivations actualActivations : List (List ℚ))
    (li i : ℕ) : ℚ :=
  let s := maxAbsValue (actualActivations.getD li [])
  let safe := if s > 1e-6 then s else 1
  min 1 (|(displayActivations.getD li []).getD i 0| / safe)

theorem writeNodeColors_get? (values : List ℚ) (ss : ℚ) :
    ∀ k (cs : List Color) i, (writeNodeColors values ss k cs).get? i =
      (cs.get? i).map (fun c =>
        match values.get? (k + i) with
        | some v => nodeColorOf v (nodeIntensity v ss)
        | none => c) := by
  intro k cs
  induction cs generalizing k with
  | nil => intro i; simp [writeNodeColors]
  | cons c rest ih =>
    intro i
    cases i with
    | zero => simp [writeNodeColors]
    | succ j =>
      rw [writeNodeColors]
      have := ih (k + 1) j
      simpa [Nat.add_assoc, Nat.add_comm 1 j] using this

theorem writeNodeColors_length (values : List ℚ) (ss : ℚ) :
    ∀ k (cs : List Color), (writeNodeColors values ss k cs).length = cs.length := by
  intro k cs
  induction cs generalizing k with
  | nil => simp [writeNodeColors]
  | cons c rest ih => simp [writeNodeColors, ih]

theorem updateMeshes_get? (display actual : List (List ℚ)) :
    ∀ k (ms : List LayerMeshState) li,
      (updateMeshes display actual k ms).get? li =
        (ms.get? li).map (fun layer =>
          match display.get? (k + li) with
          | none => layer
          | some values =>
            { layer with
                colors := applyNodeColors layer.colors values
                  (updateNodeScale actual (k + li))
              , colorNeedsUpdate := true }) := by
  intro k ms
  induction ms generalizing k with
  | nil => intro li; simp [updateMeshes]
  | cons m rest ih =>
    intro li
    cases li with
    | zero => simp [updateMeshes]
    | succ j =>
      rw [updateMeshes]
      have := ih (k + 1) j
      simpa [Nat.add_assoc, Nat.add_comm 1 j] using this

theorem updateMeshes_length (display actual : List (List ℚ)) :
    ∀ k (ms : List LayerMeshState),
      (updateMeshes display actual k ms).length = ms.length := by
  intro k ms
  induction ms generalizing k with
  | nil => simp [updateMeshes]
  | cons m rest ih => simp [updateMeshes, ih]

/-- Counterexample to C6 at the input layer: raw pixel 1/2 with
normalized actual activation 1/2.  The code divides the display value by
the constant 1 (intensity 1/2); the claim's formula divides by the
layer's maximum absolute actual activation 1/2 (intensity 1). -/
theorem node_intensity_input_layer_counterexample :
    updateNodeIntensity [[1/2]] [[1/2]] 0 0 = 1/2
    ∧ specNodeIntensity [[1/2]] [[1/2]] 0 0 = 1
    ∧ ((1 : ℚ)/2) ≠ 1 := by
  have habs : |(1 : ℚ)/2| = 1/2 := abs_of_pos (by norm_num)
  refine ⟨?_, ?_, by norm_num⟩
  · norm_num [updateNodeIntensity, updateNodeScale, nodeIntensity, maxAbsValue,
      min_def, habs]
  · norm_num [specNodeIntensity, maxAbsValue, min_def, habs]

/-- C6 as amended: for every hidden/output layer (index ≥ 1) the
intensity is the display magnitude over that layer's maximum absolute
actual activation with the 1e-6 floor (fallback scale 1), exactly as the
claim states; for the input layer (index 0) the divisor is the constant
1, not the layer's maximum absolute actual activation; and on `update`
each existing neuron instance's color is derived from exactly this
intensity. -/
theorem node_intensity_amended (display actual : List (List ℚ)) (li i : ℕ)
    (s : VisState) (values : List ℚ) (v : ℚ) :
    (0 < li → updateNodeIntensity display actual li i =
        specNodeIntensity display actual li i)
    ∧ (updateNodeIntensity display actual 0 i =
        min 1 |(display.getD 0 []).getD i 0|)
    ∧ (∀ mesh, s.layerMeshes.get? li = some mesh →
        display.get? li = some values → values.get? i = some v →
        ∃ mesh2, (update s display actual).layerMeshes.get? li = some mesh2
          ∧ mesh2.colors.get? i = (mesh.colors.get? i).map (fun _ =>
              nodeColorOf v (updateNodeIntensity display actual li i))
          ∧ mesh2.matrices = mesh.matrices) := by
  refine ⟨?_, ?_, ?_⟩
  · intro hli
    have hli0 : ¬ li = 0 := by omega
    simp only [updateNodeIntensity, specNodeIntensity, updateNodeScale, nodeIntensity,
      if_neg hli0]
    by_cases h0 : maxAbsValue (actual.getD li []) = 0
    · rw [if_pos h0, h0]
      norm_num
    · rw [if_neg h0]
  · simp only [updateNodeIntensity, updateNodeScale, nodeIntensity, if_pos rfl]
    norm_num
  · intro mesh hmesh hd hv
    have hdisp : display.getD li [] = values := by
      rw [List.getD_eq_getElem?_getD, ← List.get?_eq_getElem?, hd]
      rfl
    have hval : values.getD i 0 = v := by
      rw [List.getD_eq_getElem?_getD, ← List.get?_eq_getElem?, hv]
      rfl
    refine ⟨{ mesh with
        colors := applyNodeColors mesh.colors values (updateNodeScale actual li)
      , colorNeedsUpdate := true }, ?_, ?_, rfl⟩
    · show (updateMeshes display actual 0 s.layerMeshes).get? li = _
      rw [updateMeshes_get? display actual 0 s.layerMeshes li, hmesh]
      simp only [Nat.zero_add, hd, Option.map_some']
    · show (applyNodeColors mesh.colors values (updateNodeScale actual li)).get? i = _
      have hscalar : updateNodeIntensity display actual li i =
          nodeIntensity v
            (if updateNodeScale actual li > 1e-6 then updateNodeScale actual li else 1) := by
        simp only [updateNodeIntensity, hdisp, hval]
      unfold applyNodeColors
      rw [writeNodeColors_get?]
      simp only [Nat.zero_add, hv, hscalar]

/-- Witness for `node_intensity_amended`: at hidden-layer index 1 the
code intensity equals the claim's formula. -/
theorem node_intensity_amended_witness :
    0 < 1
    ∧ updateNodeIntensity [[1], [3]] [[1], [3]] 1 0 =
        specNodeIntensity [[1], [3]] [[1], [3]] 1 0 :=
  ⟨by decide,
    (node_intensity_amended [[1], [3]] [[1], [3]] 1 0 ⟨[], []⟩ [] 0).1 (by decide)⟩

/-! ## `update` as a frame effect -/

theorem writeConnColors_length (contributions : List ℚ) (scale : ℚ) :
    ∀ k (cs : List Color),
      (writeConnColors contributions scale k cs).length = cs.length := by
  intro k cs
  induction cs generalizing k with
  | nil => simp [writeConnColors]
  | cons c rest ih => simp [writeConnColors, ih]

/-- C7: `update` touches only per-instance colors (and the dirty flags):
the number of meshes and groups is unchanged (no reallocation), every
mesh's and group's transform matrices, instance count, connections and
`maxAbsWeight` are exactly those written at build time, and a group's
colors are rewritten from the per-edge contributions
(source activation × edge weight), scaled by the frame's maximum
absolute contribution when it exceeds 1e-6 and by the layer's static
`maxAbsWeight` as fallback otherwise (guarded to 1 when that is 0). -/
theorem update_frame_effect (s : VisState) (display actual : List (List ℚ)) :
    ((update s display actual).layerMeshes.length = s.layerMeshes.length
      ∧ (update s display actual).connectionGroups.length = s.connectionGroups.length)
    ∧ (∀ li mesh, s.layerMeshes.get? li = some mesh →
        ∃ mesh2, (update s display actual).layerMeshes.get? li = some mesh2
          ∧ mesh2.matrices = mesh.matrices
          ∧ mesh2.colors.length = mesh.colors.length)
    ∧ (∀ k g, s.connectionGroups.get? k = some g →
        ∃ g2, (update s display actual).connectionGroups.get? k = some g2
          ∧ g2.matrices = g.matrices
          ∧ g2.colors.length = g.colors.length
          ∧ g2.connections = g.connections
          ∧ g2.maxAbsWeight = g.maxAbsWeight
          ∧ (∀ sourceValues, actual.get? g.sourceLayer = some sourceValues →
              g2.colors = writeConnColors
                (groupContributions g.connections sourceValues)
                (connScale
                  (maxAbsValue (groupContributions g.connections sourceValues))
                  g.maxAbsWeight) 0 g.colors))
    ∧ (∀ maxContribution maxAbsWeight : ℚ,
        (maxContribution > 1e-6 →
          connScale maxContribution maxAbsWeight = maxContribution)
        ∧ (¬ maxContribution > 1e-6 → maxAbsWeight ≠ 0 →
          connScale maxContribution maxAbsWeight = maxAbsWeight)) := by
  refine ⟨⟨?_, ?_⟩, ?_, ?_, ?_⟩
  · exact updateMeshes_length display actual 0 s.layerMeshes
  · show (s.connectionGroups.map _).length = _
    rw [List.length_map]
  · intro li mesh hmesh
    have hget := updateMeshes_get? display actual 0 s.layerMeshes li
    rw [hmesh, Option.map_some'] at hget
    simp only [Nat.zero_add] at hget
    cases hd : display.get? li with
    | none =>
      refine ⟨mesh, ?_, rfl, rfl⟩
      rw [show (update s display actual).layerMeshes =
        updateMeshes display actual 0 s.layerMeshes from rfl, hget, hd]
    | some values =>
      refine ⟨{ mesh with
          colors := applyNodeColors mesh.colors values (updateNodeScale actual li)
        , colorNeedsUpdate := true }, ?_, rfl, ?_⟩
      · rw [show (update s display actual).layerMeshes =
          updateMeshes display actual 0 s.layerMeshes from rfl, hget, hd]
      · show (applyNodeColors mesh.colors values (updateNodeScale actual li)).length = _
        unfold applyNodeColors
        rw [writeNodeColors_length]
  · intro k g hg
    have hget : (update s display actual).connectionGroups.get? k =
        Option.map (fun group =>
          match actual.get? group.sourceLayer with
          | none => group
          | some sourceValues => applyConnectionColors group sourceValues)
          (s.connectionGroups.get? k) := by
      show (s.connectionGroups.map _).get? k = _
      rw [List.get?_eq_getElem?, List.getElem?_map, List.get?_eq_getElem?]
    rw [hg, Option.map_some'] at hget
    cases ha : actual.get? g.sourceLayer with
    | none =>
      refine ⟨g, ?_, rfl, rfl, rfl, rfl, ?_⟩
      · rw [hget, ha]
      · intro sv hsv
        cases hsv
    | some sv =>
      refine ⟨applyConnectionColors g sv, ?_, rfl, ?_, rfl, rfl, ?_⟩
      · rw [hget, ha]
      · show (writeConnColors _ _ 0 g.colors).length = _
        rw [writeConnColors_length]
      · intro sv2 hsv2
        injection hsv2 with hsv2
        subst hsv2
        rfl
  · intro maxContribution maxAbsWeight
    constructor
    · intro h
      unfold connScale
      rw [if_pos h]
    · intro h hne
      unfold connScale
      rw [if_neg h, if_neg hne]

/-- A one-mesh, one-group scene state used as the frame-effect witness. -/
def witnessState : VisState :=
  ⟨[⟨[[1, 0]], [⟨0, 0, 0⟩], false⟩],
    [⟨[[2, 0]], [⟨0, 0, 0⟩], false, [⟨0, 0, 1⟩], 0, 1⟩]⟩

/-- Witness for `update_frame_effect`: the mesh and group of
`witnessState` exist and keep their matrices and instance counts across
an update. -/
theorem update_frame_effect_witness :
    (witnessState.layerMeshes.get? 0 = some ⟨[[1, 0]], [⟨0, 0, 0⟩], false⟩)
    ∧ (∃ mesh2, (update witnessState [[1]] [[1]]).layerMeshes.get? 0 = some mesh2
        ∧ mesh2.matrices = (⟨[[1, 0]], [⟨0, 0, 0⟩], false⟩ : LayerMeshState).matrices
        ∧ mesh2.colors.length =
            (⟨[[1, 0]], [⟨0, 0, 0⟩], false⟩ : LayerMeshState).colors.length) :=
  ⟨rfl,
    (update_frame_effect witnessState [[1]] [[1]]).2.1 0
      ⟨[[1, 0]], [⟨0, 0, 0⟩], false⟩ rfl⟩

end VP
